import Mathlib

/-!
Verification of the codebase-analyzer core (src/codebase-analyzer.ts and
src/util.ts): a shallow embedding of the file-selection and
context-assembly pipeline, followed by theorems about its behaviour.

Modelling conventions:
* JavaScript strings are `String`, reasoned about through their `data`
  character lists.
* The filesystem is an explicit tree of entries (`FSEntry`); `fs.readdir`
  failure is a boolean on directory entries, and `fs.readFile` is an
  oracle `String → Option String` (`none` = read error).
* The regular-expression engine behind `new RegExp(p).test(s)` is an
  opaque collaborator `regexTest : String → String → Bool` carried in the
  configuration.
* `process.memoryUsage().heapUsed / 1024 / 1024` is an opaque probe
  `Nat → Nat` read once per guard invocation (the k-th invocation reads
  `probe k`), as suggested by the spec's injectable memory-usage probe.
* Mutable instance counters (`totalSize`, `processedFiles`, `totalFiles`)
  become explicit state threading.
-/

namespace CodebaseAnalyzer

/-- The JavaScript `\s` character class (as used by `split(/\s+/)` and
`String.prototype.trim`). -/
def isJSWS (c : Char) : Bool :=
  c = ' ' || c = '\t' || c = '\n' || c = '\r' ||
  c = (Char.ofNat 11) || c = (Char.ofNat 12) ||
  c = (Char.ofNat 0xa0) || c = (Char.ofNat 0x1680) ||
  (0x2000 ≤ c.toNat && c.toNat ≤ 0x200a) ||
  c = (Char.ofNat 0x2028) || c = (Char.ofNat 0x2029) ||
  c = (Char.ofNat 0x202f) || c = (Char.ofNat 0x205f) ||
  c = (Char.ofNat 0x3000) || c = (Char.ofNat 0xfeff)

/-- Model of JavaScript `str.split(/\s+/)`, written as a single structural
scan.  The second argument is `some acc` while a token is being
accumulated (in reverse) and `none` while a whitespace run is being
skipped.  As in JavaScript, a leading whitespace run yields a leading `""`
element and a trailing run a trailing `""` element, and `"".split`
yields `[""]`. -/
def splitWSAux : List Char → Option (List Char) → List String
  | [], some acc => [String.mk acc.reverse]
  | [], none => [""]
  | c :: cs, some acc =>
      if isJSWS c then String.mk acc.reverse :: splitWSAux cs none
      else splitWSAux cs (some (c :: acc))
  | c :: cs, none =>
      if isJSWS c then splitWSAux cs none
      else splitWSAux cs (some [c])

/-- `context.split(/\s+/)` from `truncateContext`. -/
def splitWS (s : String) : List String := splitWSAux s.data (some [])

/-- Model of JavaScript `Array.prototype.join(sep)`. -/
def joinWith (sep : String) : List String → String
  | [] => ""
  | [s] => s
  | s :: rest => s ++ sep ++ joinWith sep rest

/-- `truncateContext` from src/codebase-analyzer.ts: split the context on
whitespace runs; if the piece count exceeds `maxTokens`, keep the first
`maxTokens` pieces re-joined with single spaces, otherwise return the
context unchanged. -/
def truncateContext (maxTokens : Nat) (context : String) : String :=
  let tokens := splitWS context
  if tokens.length > maxTokens then joinWith " " (tokens.take maxTokens)
  else context

/-- Model of JavaScript `String.prototype.trim` (drop the JS whitespace
class from both ends). -/
def jsTrim (s : String) : String :=
  String.mk (((s.data.dropWhile isJSWS).reverse.dropWhile isJSWS).reverse)

/-- Model of JavaScript `String.prototype.startsWith`. -/
def jsStartsWith (s pre : String) : Bool := pre.data.isPrefixOf s.data

/-- Model of JavaScript `String.prototype.endsWith`. -/
def jsEndsWith (s post : String) : Bool := post.data.isSuffixOf s.data

/-- Final path component as scanned by the external `node:path` (posix)
helpers: trailing slashes are skipped, then characters up to the previous
slash form the component. -/
def lastComponent (p : String) : String :=
  String.mk (((p.data.reverse.dropWhile (· = '/')).takeWhile (· ≠ '/')).reverse)

/-- Index of the last `'.'` in a character list, if any. -/
def lastDotIdx : List Char → Option Nat
  | [] => none
  | c :: cs =>
      match lastDotIdx cs with
      | some i => some (i + 1)
      | none => if c = '.' then some 0 else none

/-- Modelled from the external `node:path` collaborator: posix
`path.extname` restricted to one path component.  It returns `""` when
the component has no dot, when its last dot is at position 0 (leading-dot
files such as `.gitignore`), or when the component is exactly `".."`;
otherwise it returns the suffix starting at the last dot (so a trailing
dot, as in `"index."`, yields `"."`).  This is the documented and
implemented behaviour of Node's `extname` state machine. -/
def extnameBase (b : String) : String :=
  match lastDotIdx b.data with
  | none => ""
  | some i => if i = 0 || b = ".." then "" else String.mk (b.data.drop i)

/-- `path.extname` on a full posix path: the extension of its final
component. -/
def extname (p : String) : String := extnameBase (lastComponent p)

/-- `hasExtension` from src/codebase-analyzer.ts:
`path.extname(filePath) !== ""`. -/
def hasExtension (p : String) : Bool := extname p != ""

/-- Bounded iteration computing `Nat.log`-style floored logarithms; the
fuel is chosen so the recursion never runs out.  `floorLog b n` is the
exact value of `Math.floor(Math.log(n) / Math.log(b))` for the inputs
relevant here. -/
def floorLogAux : Nat → Nat → Nat → Nat
  | 0, _, _ => 0
  | fuel + 1, b, n => if 2 ≤ b ∧ b ≤ n then floorLogAux fuel b (n / b) + 1 else 0

/-- Floored base-`b` logarithm (0 for `n < b`). -/
def floorLog (b n : Nat) : Nat := floorLogAux n b n

/-- Decimal digit characters. -/
def digitChar (n : Nat) : Char := "0123456789".data.getD n '0'

/-- Decimal digit list of a natural number (fuel-based so that it is
structural and computes by kernel reduction). -/
def natReprAux : Nat → Nat → List Char
  | 0, _ => []
  | fuel + 1, n =>
      if n < 10 then [digitChar n]
      else natReprAux fuel (n / 10) ++ [digitChar (n % 10)]

/-- Decimal rendering of a natural number. -/
def natRepr (n : Nat) : String := String.mk (natReprAux (n + 1) n)

/-- Rendering of a non-negative quantity of hundredths the way JavaScript
prints the corresponding number (`150` ↦ `"1.5"`, `102` ↦ `"1.02"`,
`100` ↦ `"1"`): trailing zeros of the fraction are dropped, as happens
in the source via `Number(formattedSize)`. -/
def jsNumOfHundredths (n : Nat) : String :=
  let ip := n / 100
  let fr := n % 100
  if fr = 0 then natRepr ip
  else if fr % 10 = 0 then natRepr ip ++ "." ++ natRepr (fr / 10)
  else natRepr ip ++ "." ++ (if fr < 10 then "0" ++ natRepr fr else natRepr fr)

/-- The `units` array of src/util.ts. -/
def sizeUnits : List String := ["bytes", "KB", "MB", "GB", "TB"]

/-- `formatSize` from src/util.ts, with the floating-point computation
modelled exactly over the rationals: `index` is
`Math.floor(Math.log(size) / Math.log(1024))`, the mantissa `m` is
`Number((size / 1024 ** index).toPrecision(3))` scaled so that
`m * 10 ^ e` is that value in hundredths (`toPrecision(3)` rounds to
three significant digits, here half-up), and an out-of-range unit index
renders as JavaScript's `"undefined"`. -/
def formatSize (bytes : Int) : String :=
  if bytes = 0 then "0 bytes"
  else
    let size := bytes.natAbs
    let index := floorLog 1024 size
    let d := 1024 ^ index
    let e := floorLog 10 (size / d)
    let d10 := d * 10 ^ e
    let m := (200 * size + d10) / (2 * d10)
    let num := jsNumOfHundredths (m * 10 ^ e)
    (if bytes < 0 then "-" ++ num else num) ++ " " ++ sizeUnits.getD index "undefined"

/-- The `FileNode` record of src/types.ts: one filesystem entry
discovered during traversal. -/
inductive FileNode where
  | mk (name : String) (path : String) (size : Int) (isDirectory : Bool)
       (children : List FileNode)

/-- Node base name. -/
def FileNode.name : FileNode → String
  | ⟨n, _, _, _, _⟩ => n

/-- Fully resolved node path. -/
def FileNode.path : FileNode → String
  | ⟨_, p, _, _, _⟩ => p

/-- Node byte size. -/
def FileNode.size : FileNode → Int
  | ⟨_, _, s, _, _⟩ => s

/-- Whether the node is a directory. -/
def FileNode.isDirectory : FileNode → Bool
  | ⟨_, _, _, d, _⟩ => d

/-- Node children. -/
def FileNode.children : FileNode → List FileNode
  | ⟨_, _, _, _, c⟩ => c

/-- Total number of nodes (files and directories) reachable by the
traversals of the source, which recurse into `children` only for
directory nodes. -/
def totalNodes : List FileNode → Nat
  | [] => 0
  | ⟨_, _, _, isDir, children⟩ :: rest =>
      1 + (if isDir then totalNodes children else 0) + totalNodes rest

/-- Relative path from root segments, joined with the posix separator. -/
def joinSegs : List String → String
  | [] => ""
  | [s] => s
  | s :: rest => s ++ "/" ++ joinSegs rest

/-- The validated `Config` of src/codebase-analyzer.ts (constructor
fields after defaulting), together with the opaque regular-expression
collaborator: `regexTest p s` models `new RegExp(p).test(s)`. -/
structure AnalyzerConfig where
  directory : String
  relevantExtensions : List String
  maxFileSize : Nat
  maxTokens : Nat
  ignorePatterns : List String
  ignoreFilesWithNoExtension : Bool
  memoryLimitMB : Nat
  regexTest : String → String → Bool

/-- `shouldIgnore` from src/codebase-analyzer.ts.  The two `node:path`
inputs are factored out as arguments: `relativePath` is
`path.relative(this.directory, filePath)` and `baseName` is
`path.basename(filePath)` (for the descendant paths passed during
traversal these are the joined root-relative segments and the final
segment). -/
def shouldIgnore (cfg : AnalyzerConfig) (relativePath baseName : String) : Bool :=
  jsStartsWith relativePath "." ||
    cfg.ignorePatterns.any fun pattern =>
      cfg.regexTest pattern relativePath || cfg.regexTest pattern baseName

/-- `isRelevantFile` from src/codebase-analyzer.ts, for a path already
known to stat successfully as a regular file of byte size `size`. -/
def isRelevantFile (cfg : AnalyzerConfig) (filePath : String) (size : Nat) : Bool :=
  if cfg.ignoreFilesWithNoExtension && !hasExtension filePath then false
  else size ≤ cfg.maxFileSize &&
    cfg.relevantExtensions.any fun ext => jsEndsWith filePath ext

/-- A filesystem directory entry: the listing/stat collaborator.
`readdirOk = false` on a directory models `fs.readdir` failing there
(caught and logged by `gatherFiles`, which then returns no children). -/
inductive FSEntry where
  | file (name : String) (size : Nat)
  | dir (name : String) (readdirOk : Bool) (entries : List FSEntry)

/-- `gatherFiles` from src/codebase-analyzer.ts, over the explicit
filesystem tree.  `segs` is the root-relative segment path of the
directory being listed and the `Nat` argument threads the mutable
`this.totalSize` accumulator (incremented by each included file's size).
Sibling results are combined in listing order, as `Promise.all`
preserves it; directory nodes are included only when their recursively
gathered children list is non-empty, and directory nodes carry size 0
(the stat size of a directory is never used by the pipeline).  `fs.stat`
is assumed to succeed on every listed entry: a stat failure in the
source rejects the whole directory's `Promise.all` while concurrently
started siblings race on, a nondeterministic path not modelled here. -/
def gatherList (cfg : AnalyzerConfig) :
    List String → List FSEntry → Nat → List FileNode × Nat
  | _, [], s => ([], s)
  | segs, .file name size :: rest, s =>
      let rel := joinSegs (segs ++ [name])
      let fullPath := cfg.directory ++ "/" ++ rel
      if shouldIgnore cfg rel name then gatherList cfg segs rest s
      else if isRelevantFile cfg fullPath size then
        let tail := gatherList cfg segs rest (s + size)
        (⟨name, fullPath, (size : Int), false, []⟩ :: tail.1, tail.2)
      else gatherList cfg segs rest s
  | segs, .dir name rok entries :: rest, s =>
      let rel := joinSegs (segs ++ [name])
      let fullPath := cfg.directory ++ "/" ++ rel
      if shouldIgnore cfg rel name then gatherList cfg segs rest s
      else
        let sub := if rok then gatherList cfg (segs ++ [name]) entries s else ([], s)
        let tail := gatherList cfg segs rest sub.2
        if sub.1.isEmpty then tail
        else (⟨name, fullPath, 0, true, sub.1⟩ :: tail.1, tail.2)

/-- `countTotalFiles` from src/codebase-analyzer.ts: number of
non-directory nodes of the tree. -/
def countTotalFiles : List FileNode → Nat
  | [] => 0
  | ⟨_, _, _, isDir, children⟩ :: rest =>
      (if isDir then countTotalFiles children else 1) + countTotalFiles rest

/-- The pruning invariant: no directory node anywhere in the tree has an
empty children list. -/
def noEmptyDirs : List FileNode → Bool
  | [] => true
  | ⟨_, _, _, isDir, children⟩ :: rest =>
      (if isDir then !children.isEmpty && noEmptyDirs children else true) &&
        noEmptyDirs rest

/-- Whether no file node of the tree can be read successfully by the
read oracle (directories are recursed into, file nodes must read as
`none`). -/
def noReadableFile (readFile : String → Option String) : List FileNode → Bool
  | [] => true
  | ⟨_, path, _, isDir, children⟩ :: rest =>
      (if isDir then noReadableFile readFile children
       else (readFile path).isNone) && noReadableFile readFile rest

/-- State of `processFileTree`: the shared `context` block array, the
`this.processedFiles` counter and the number of memory-guard probes
consumed so far. -/
structure PState where
  ctx : List String
  processed : Nat
  probeIdx : Nat

/-- The fatal message thrown by `checkMemoryUsage`. -/
def memoryErrorMsg : String :=
  "Your codebase is too large to process. Please try again with a smaller one."

/-- `checkMemoryUsage` from src/codebase-analyzer.ts: the `i`-th guard
invocation reads `probe i` (the measured heap usage in MB) and fails the
analysis when it exceeds the configured limit. -/
def checkMemoryUsage (probe : Nat → Nat) (limitMB : Nat) (i : Nat) : Except String Nat :=
  if probe i > limitMB then Except.error memoryErrorMsg else Except.ok (i + 1)

/-- The formatted block pushed for one successfully read file:
`File: ${path} (${formatSize(size)})\n\n${content.trim()}\n\n${"=".repeat(20)}\n`. -/
def fileBlock (path : String) (size : Int) (content : String) : String :=
  "File: " ++ path ++ " (" ++ formatSize size ++ ")" ++ "\n\n" ++
    jsTrim content ++ "\n\n" ++ "====================" ++ "\n"

/-- `processFileTree` from src/codebase-analyzer.ts: depth-first,
sequential; file nodes are read through the `readFile` oracle (a `none`
result is the caught-and-logged read failure, which skips the file), and
after every node — file or directory, after recursing into its
children — the memory guard runs once. -/
def processFileTree (readFile : String → Option String) (probe : Nat → Nat)
    (limitMB : Nat) : List FileNode → PState → Except String PState
  | [], st => Except.ok st
  | ⟨_, path, size, isDir, children⟩ :: rest, st =>
      let step : Except String PState :=
        if isDir then processFileTree readFile probe limitMB children st
        else
          match readFile path with
          | some content =>
              Except.ok ⟨st.ctx ++ [fileBlock path size content],
                st.processed + 1, st.probeIdx⟩
          | none => Except.ok st
      match step with
      | Except.error e => Except.error e
      | Except.ok st1 =>
          match checkMemoryUsage probe limitMB st1.probeIdx with
          | Except.error e => Except.error e
          | Except.ok i2 =>
              processFileTree readFile probe limitMB rest ⟨st1.ctx, st1.processed, i2⟩

/-- `buildTreeView` from src/codebase-analyzer.ts.  `isLastItem`
(`index === nodes.length - 1` in the source loop) is rendered here as
the remaining-list check. -/
def buildTreeView : List FileNode → String → String
  | [], _ => ""
  | ⟨name, _, size, isDir, children⟩ :: rest, indent =>
      let isLast := rest.isEmpty
      let sizeStr := if isDir then "" else " " ++ formatSize size
      let line := indent ++ (if isLast then "└──" else "├──") ++ " " ++
        (if isDir then "📁" else "☰") ++ " " ++ name ++ sizeStr ++ "\n"
      line ++
        (if isDir then
          buildTreeView children (indent ++ (if isLast then "    " else "│   "))
         else "") ++
        buildTreeView rest indent

/-- The tree view as the spec describes it: a list with exactly one line
per node, the last sibling of a level introduced by the `└──` connector
and every other sibling by `├──`, a directory/file marker, the name, a
size suffix for files only, and child lines indented by four extra
spaces under a last sibling and by a bar plus three spaces otherwise. -/
def specTreeLines : List FileNode → String → List String
  | [], _ => []
  | [⟨name, _, size, isDir, children⟩], indent =>
      (indent ++ "└──" ++ " " ++ (if isDir then "📁" else "☰") ++ " " ++ name ++
          (if isDir then "" else " " ++ formatSize size)) ::
        (if isDir then specTreeLines children (indent ++ "    ") else [])
  | ⟨name, _, size, isDir, children⟩ :: next :: rest, indent =>
      (indent ++ "├──" ++ " " ++ (if isDir then "📁" else "☰") ++ " " ++ name ++
          (if isDir then "" else " " ++ formatSize size)) ::
        ((if isDir then specTreeLines children (indent ++ "│   ") else []) ++
          specTreeLines (next :: rest) indent)

/-- Terminate every line of a list with a newline and concatenate. -/
def joinNL : List String → String
  | [] => ""
  | l :: ls => l ++ "\n" ++ joinNL ls

/-- The `Output` record of src/types.ts (file statistics flattened). -/
structure Output where
  context : String
  tokenCount : Nat
  treeView : String
  totalSize : Nat
  totalCount : Nat
  processedCount : Nat

/-- The terminal error of `gatherContext` for an empty block sequence. -/
def noRelevantMsg : String := "No relevant files found."

/-- `analyze` from src/codebase-analyzer.ts: gather the tree (threading
`totalSize` from its initial 0), count total files, assemble the context
blocks under the memory guard, fail if no block was produced, join the
blocks with newlines, truncate to the token budget, count tokens with
the external `tokenizer`, render the tree view and package the output.
The source's catch block only logs and rethrows the same error, so
errors propagate unchanged. -/
def analyze (cfg : AnalyzerConfig) (entries : List FSEntry)
    (readFile : String → Option String) (probe : Nat → Nat)
    (tokenizer : String → Nat) : Except String Output :=
  let gathered := gatherList cfg [] entries 0
  let fileTree := gathered.1
  let totalFiles := countTotalFiles fileTree
  match processFileTree readFile probe cfg.memoryLimitMB fileTree ⟨[], 0, 0⟩ with
  | Except.error e => Except.error e
  | Except.ok st =>
      if st.ctx.isEmpty then Except.error noRelevantMsg
      else
        let context := joinWith "\n" st.ctx
        let truncated := truncateContext cfg.maxTokens context
        Except.ok ⟨truncated, tokenizer truncated, buildTreeView fileTree "",
          gathered.2, totalFiles, st.processed⟩

/-- The property claimed of `hasExtension`: the final component contains
a dot that is not at position 0 of the base name and is followed by at
least one character. -/
def claimHasExtension (p : String) : Bool :=
  let b := (lastComponent p).data
  b.enum.any fun ic => decide (0 < ic.1 ∧ ic.2 = '.' ∧ ic.1 + 1 < b.length)

/-- The amended characterisation of `hasExtension`: the final component
contains a dot at a position other than 0 of the base name — that is, a
dot somewhere in its tail, possibly as the final character — and is not
the special component `".."`. -/
def amendedHasExtension (p : String) : Bool :=
  (lastComponent p).data.tail.contains '.' && !(lastComponent p == "..")

/-- A character list free of JS whitespace. -/
def wsFreeL (l : List Char) : Prop := ∀ c ∈ l, isJSWS c = false

/-- Number of newline characters of a string; a string that renders as
`n` terminated lines contains exactly `n` newlines. -/
def countNL (s : String) : Nat := s.data.count '\n'

/-- All names rendered by `buildTreeView` (the recursion visits children
of directory nodes only) are free of newline characters. -/
def cleanTree : List FileNode → Bool
  | [] => true
  | ⟨name, _, _, isDir, children⟩ :: rest =>
      !name.data.contains '\n' && (if isDir then cleanTree children else true) &&
        cleanTree rest

end CodebaseAnalyzer

namespace CodebaseAnalyzer

/-- A small concrete configuration (root `/r`, relevant extension `.ts`,
max file size 100, token budget 10, no ignore patterns, extensionless
files excluded, memory limit 64 MB, a regex collaborator that never
matches), used to instantiate theorems at concrete inputs. -/
def cfgT : AnalyzerConfig := ⟨"/r", [".ts"], 100, 10, [], true, 64, fun _ _ => false⟩

end CodebaseAnalyzer

namespace CodebaseAnalyzer

/-! ## Generic string and list facts -/

theorem data_mk (l : List Char) : (String.mk l).data = l := rfl

theorem mk_data (s : String) : String.mk s.data = s := by cases s; rfl

theorem strData_append (a b : String) : (a ++ b).data = a.data ++ b.data := rfl

theorem str_ne_empty_iff (s : String) : s ≠ "" ↔ s.data ≠ [] := by
  constructor
  · intro h hd
    apply h
    cases s
    simp only at hd
    simp [hd]
  · intro h he
    apply h
    simp [he]

theorem tail_dropLast_subset {α : Type} (l : List α) :
    l.tail.dropLast ⊆ l.dropLast := by
  cases l with
  | nil => simp
  | cons x l' =>
    cases l' with
    | nil => simp
    | cons y l'' =>
      intro p hp
      simp only [List.tail_cons] at hp
      simp [List.dropLast_cons₂]
      exact Or.inr hp

theorem take_tail_eq {α : Type} (m : Nat) (l : List α) :
    (l.take m).tail = l.tail.take (m - 1) := by
  cases m with
  | zero => simp
  | succ k =>
    cases l with
    | nil => simp
    | cons x l' => simp

theorem take_subset_take {α : Type} {i j : Nat} (h : i ≤ j) (l : List α) :
    l.take i ⊆ l.take j := by
  intro p hp
  have : l.take i = (l.take j).take i := by
    rw [List.take_take, Nat.min_eq_left h]
  rw [this] at hp
  exact List.take_subset _ _ hp

/-! ## C10: truncateContext is the identity within budget -/

/-- C10: for every text whose whitespace-token count is at most
`maxTokens`, `truncateContext` returns the input unchanged, preserving
all original whitespace and formatting. -/
theorem truncateContext_within_budget (maxTokens : Nat) (context : String)
    (h : (splitWS context).length ≤ maxTokens) :
    truncateContext maxTokens context = context := by
  unfold truncateContext
  rw [if_neg (by omega)]

theorem truncateContext_within_budget_witness :
    (splitWS "a  b\nc").length ≤ 5 ∧
      truncateContext 5 "a  b\nc" = "a  b\nc" :=
  ⟨by decide, truncateContext_within_budget 5 "a  b\nc" (by decide)⟩

end CodebaseAnalyzer

namespace CodebaseAnalyzer

/-! ## C1: truncateContext over budget -/

theorem splitWSAux_ne_nil : ∀ (cs : List Char) (mode : Option (List Char)),
    splitWSAux cs mode ≠ [] := by
  intro cs
  induction cs with
  | nil => intro mode; cases mode <;> simp [splitWSAux]
  | cons c cs ih =>
    intro mode
    cases mode <;> simp only [splitWSAux] <;> split <;> simp [ih]

theorem splitWSAux_wsFree : ∀ (cs : List Char) (mode : Option (List Char)),
    (∀ acc, mode = some acc → wsFreeL acc) →
    ∀ p ∈ splitWSAux cs mode, wsFreeL p.data := by
  intro cs
  induction cs with
  | nil =>
    intro mode hm p hp
    cases mode with
    | none =>
      simp [splitWSAux] at hp
      subst hp
      intro c hc
      simp at hc
    | some acc =>
      simp [splitWSAux] at hp
      subst hp
      intro c hc
      rw [data_mk] at hc
      exact hm acc rfl c (List.mem_reverse.mp hc)
  | cons c cs ih =>
    intro mode hm p hp
    cases mode with
    | none =>
      simp only [splitWSAux] at hp
      by_cases hw : isJSWS c
      · rw [if_pos hw] at hp
        exact ih none (by intro a ha; cases ha) p hp
      · rw [if_neg hw] at hp
        refine ih (some [c]) ?_ p hp
        intro a ha x hx
        cases ha
        simp at hx
        subst hx
        simpa using hw
    | some acc =>
      simp only [splitWSAux] at hp
      by_cases hw : isJSWS c
      · rw [if_pos hw] at hp
        rcases List.mem_cons.mp hp with h1 | h2
        · subst h1
          intro x hx
          rw [data_mk] at hx
          exact hm acc rfl x (List.mem_reverse.mp hx)
        · exact ih none (by intro a ha; cases ha) p h2
      · rw [if_neg hw] at hp
        refine ih (some (c :: acc)) ?_ p hp
        intro a ha x hx
        cases ha
        rcases List.mem_cons.mp hx with h1 | h2
        · subst h1; simpa using hw
        · exact hm acc rfl x h2

theorem splitWSAux_dropLast_ne_empty :
    ∀ (cs : List Char) (mode : Option (List Char)),
    (∀ acc, mode = some acc → acc ≠ []) →
    ∀ p ∈ (splitWSAux cs mode).dropLast, p ≠ "" := by
  intro cs
  induction cs with
  | nil =>
    intro mode hm p hp
    cases mode <;> simp [splitWSAux] at hp
  | cons c cs ih =>
    intro mode hm p hp
    cases mode with
    | none =>
      simp only [splitWSAux] at hp
      by_cases hw : isJSWS c
      · rw [if_pos hw] at hp
        exact ih none (by intro a ha; cases ha) p hp
      · rw [if_neg hw] at hp
        exact ih (some [c]) (by intro a ha; cases ha; simp) p hp
    | some acc =>
      simp only [splitWSAux] at hp
      by_cases hw : isJSWS c
      · rw [if_pos hw] at hp
        rw [List.dropLast_cons_of_ne_nil (splitWSAux_ne_nil cs none)] at hp
        rcases List.mem_cons.mp hp with h1 | h2
        · subst h1
          rw [str_ne_empty_iff, data_mk]
          simp [hm acc rfl]
        · exact ih none (by intro a ha; cases ha) p h2
      · rw [if_neg hw] at hp
        exact ih (some (c :: acc)) (by intro a ha; cases ha; simp) p hp

theorem splitWSAux_tail_dropLast_ne_empty :
    ∀ (cs : List Char) (mode : Option (List Char)),
    ∀ p ∈ (splitWSAux cs mode).tail.dropLast, p ≠ "" := by
  intro cs
  induction cs with
  | nil =>
    intro mode p hp
    cases mode <;> simp [splitWSAux] at hp
  | cons c cs ih =>
    intro mode p hp
    cases mode with
    | none =>
      simp only [splitWSAux] at hp
      by_cases hw : isJSWS c
      · rw [if_pos hw] at hp
        exact ih none p hp
      · rw [if_neg hw] at hp
        exact splitWSAux_dropLast_ne_empty cs (some [c])
          (by intro a ha; cases ha; simp) p (tail_dropLast_subset _ hp)
    | some acc =>
      simp only [splitWSAux] at hp
      by_cases hw : isJSWS c
      · rw [if_pos hw] at hp
        simp only [List.tail_cons] at hp
        exact splitWSAux_dropLast_ne_empty cs none (by intro a ha; cases ha) p hp
      · rw [if_neg hw] at hp
        exact splitWSAux_dropLast_ne_empty cs (some (c :: acc))
          (by intro a ha; cases ha; simp) p (tail_dropLast_subset _ hp)

theorem splitWSAux_no_ws : ∀ (k acc : List Char), wsFreeL k →
    splitWSAux k (some acc) = [String.mk (acc.reverse ++ k)] := by
  intro k
  induction k with
  | nil => intro acc _; simp [splitWSAux]
  | cons c k' ih =>
    intro acc h
    have hc : isJSWS c = false := h c (by simp)
    simp only [splitWSAux, hc, Bool.false_eq_true, if_false]
    rw [ih (c :: acc) (by intro x hx; exact h x (by simp [hx]))]
    simp

theorem splitWSAux_token_break : ∀ (k acc rest : List Char), wsFreeL k →
    splitWSAux (k ++ ' ' :: rest) (some acc) =
      String.mk (acc.reverse ++ k) :: splitWSAux rest none := by
  intro k
  induction k with
  | nil =>
    intro acc rest _
    simp [splitWSAux, isJSWS]
  | cons c k' ih =>
    intro acc rest h
    have hc : isJSWS c = false := h c (by simp)
    rw [List.cons_append]
    simp only [splitWSAux, hc, Bool.false_eq_true, if_false]
    rw [ih (c :: acc) rest (by intro x hx; exact h x (by simp [hx]))]
    simp

theorem splitWSAux_none_eq_some_nil (c : Char) (cs : List Char)
    (h : isJSWS c = false) :
    splitWSAux (c :: cs) none = splitWSAux (c :: cs) (some []) := by
  simp [splitWSAux, h]

theorem joinWith_cons_data (sep : String) (k : String) (k2 : String)
    (ks : List String) :
    (joinWith sep (k :: k2 :: ks)).data =
      k.data ++ sep.data ++ (joinWith sep (k2 :: ks)).data := by
  simp [joinWith, strData_append]

theorem splitWS_joinWith_space : ∀ (ks : List String), ks ≠ [] →
    (∀ p ∈ ks, wsFreeL p.data) → (∀ p ∈ ks.tail, p ≠ "") →
    splitWS (joinWith " " ks) = ks := by
  intro ks
  induction ks with
  | nil => intro h; exact absurd rfl h
  | cons k ks' ih =>
    intro _ hfree htail
    cases ks' with
    | nil =>
      show splitWSAux (joinWith " " [k]).data (some []) = [k]
      simp only [joinWith]
      rw [splitWSAux_no_ws k.data [] (hfree k (by simp))]
      simp [mk_data]
    | cons k2 ks'' =>
      show splitWSAux (joinWith " " (k :: k2 :: ks'')).data (some []) = _
      rw [joinWith_cons_data]
      have hsep : (" " : String).data = [' '] := rfl
      rw [hsep]
      have : k.data ++ [' '] ++ (joinWith " " (k2 :: ks'')).data =
          k.data ++ ' ' :: (joinWith " " (k2 :: ks'')).data := by simp
      rw [this, splitWSAux_token_break k.data [] _ (hfree k (by simp))]
      have hk2ne : k2 ≠ "" := htail k2 (by simp)
      have hk2data : k2.data ≠ [] := (str_ne_empty_iff k2).mp hk2ne
      obtain ⟨c, cs', hcs⟩ : ∃ c cs', k2.data = c :: cs' := by
        cases hd : k2.data with
        | nil => exact absurd hd hk2data
        | cons a b => exact ⟨a, b, rfl⟩
      have hJ : ∃ t, (joinWith " " (k2 :: ks'')).data = k2.data ++ t := by
        cases ks'' with
        | nil => exact ⟨[], by simp [joinWith]⟩
        | cons k3 ks3 => exact ⟨(" " : String).data ++ (joinWith " " (k3 :: ks3)).data,
            by rw [joinWith_cons_data]; simp⟩
      obtain ⟨t, ht⟩ := hJ
      have hchead : isJSWS c = false := by
        have := hfree k2 (by simp) c (by rw [hcs]; simp)
        exact this
      rw [ht, hcs]
      rw [show (c :: cs') ++ t = c :: (cs' ++ t) by simp]
      rw [splitWSAux_none_eq_some_nil c _ hchead]
      rw [show c :: (cs' ++ t) = (c :: cs') ++ t by simp, ← hcs, ← ht]
      have hih := ih (by simp) (by intro p hp; exact hfree p (by simp [hp]))
        (by intro p hp; apply htail p; simp only [List.tail_cons] at hp ⊢
            exact List.mem_cons_of_mem k2 hp)
      have hih2 : splitWSAux (joinWith " " (k2 :: ks'')).data (some []) =
          k2 :: ks'' := hih
      rw [hih2]
      simp [mk_data]

/-- C1 as stated is false when `maxTokens = 0`: any non-empty token list
exceeds the budget, but the truncated result `""` still splits into one
(empty) token, not zero. -/
theorem truncateContext_exact_count_counterexample :
    (splitWS "a").length > 0 ∧ (splitWS (truncateContext 0 "a")).length ≠ 0 := by
  decide

/-- C1 amended: provided `maxTokens ≥ 1`, for every input whose
whitespace-split piece count (as the code measures it, with JavaScript's
`split(/\s+/)` semantics) exceeds `maxTokens`, the output splits into
exactly `maxTokens` pieces, and it is the first `maxTokens` pieces of the
input re-joined with single spaces. -/
theorem truncateContext_over_budget (maxTokens : Nat) (context : String)
    (h1 : 1 ≤ maxTokens) (h2 : maxTokens < (splitWS context).length) :
    (splitWS (truncateContext maxTokens context)).length = maxTokens ∧
      truncateContext maxTokens context =
        joinWith " " ((splitWS context).take maxTokens) := by
  have htr : truncateContext maxTokens context =
      joinWith " " ((splitWS context).take maxTokens) := by
    unfold truncateContext
    rw [if_pos (by omega)]
  refine ⟨?_, htr⟩
  rw [htr]
  set ks := splitWS context with hks
  set kept := ks.take maxTokens with hkept
  have hlen : kept.length = maxTokens := by
    rw [hkept, List.length_take]
    omega
  have hne : kept ≠ [] := by
    intro h
    rw [h] at hlen
    simp at hlen
    omega
  have hfree : ∀ p ∈ kept, wsFreeL p.data := by
    intro p hp
    exact splitWSAux_wsFree context.data (some [])
      (by intro a ha x hx; cases ha; cases hx) p (List.take_subset _ _ hp)
  have htail : ∀ p ∈ kept.tail, p ≠ "" := by
    intro p hp
    rw [hkept, take_tail_eq] at hp
    have hsub : ks.tail.take (maxTokens - 1) ⊆ ks.tail.dropLast := by
      rw [List.dropLast_eq_take]
      apply take_subset_take
      rw [List.length_tail]
      omega
    exact splitWSAux_tail_dropLast_ne_empty context.data (some []) p (hsub hp)
  rw [splitWS_joinWith_space kept hne hfree htail]
  exact hlen

theorem truncateContext_over_budget_witness :
    (1 ≤ 2 ∧ 2 < (splitWS " a b c d").length) ∧
      ((splitWS (truncateContext 2 " a b c d")).length = 2 ∧
        truncateContext 2 " a b c d" =
          joinWith " " ((splitWS " a b c d").take 2)) :=
  ⟨⟨by decide, by decide⟩,
    truncateContext_over_budget 2 " a b c d" (by decide) (by decide)⟩

end CodebaseAnalyzer

namespace CodebaseAnalyzer

/-! ## C5: shouldIgnore characterisation -/

theorem jsStartsWith_dot (s : String) :
    jsStartsWith s "." = true ↔ s.data.head? = some '.' := by
  unfold jsStartsWith
  have hd : ("." : String).data = ['.'] := rfl
  rw [hd]
  cases s.data with
  | nil => simp [List.isPrefixOf]
  | cons c cs => simp [List.isPrefixOf]; exact eq_comm

/-- C5: `shouldIgnore` returns true exactly when the root-relative path
starts with a dot, or some configured ignore pattern — compiled as a
regular expression — matches the root-relative path or the base name
alone; in particular it returns false for every non-matching, non-hidden
relative path. -/
theorem shouldIgnore_iff (cfg : AnalyzerConfig) (relativePath baseName : String) :
    shouldIgnore cfg relativePath baseName = true ↔
      (relativePath.data.head? = some '.' ∨
        ∃ p ∈ cfg.ignorePatterns,
          cfg.regexTest p relativePath = true ∨ cfg.regexTest p baseName = true) := by
  unfold shouldIgnore
  rw [Bool.or_eq_true, jsStartsWith_dot, List.any_eq_true]
  constructor
  · intro h
    rcases h with h | ⟨p, hp, hb⟩
    · exact Or.inl h
    · exact Or.inr ⟨p, hp, Bool.or_eq_true _ _ |>.mp hb⟩
  · intro h
    rcases h with h | ⟨p, hp, hb⟩
    · exact Or.inl h
    · exact Or.inr ⟨p, hp, Bool.or_eq_true _ _ |>.mpr hb⟩

/-! ## C6: hasExtension characterisation -/

theorem lastDotIdx_eq_none_iff (cs : List Char) :
    lastDotIdx cs = none ↔ '.' ∉ cs := by
  induction cs with
  | nil => simp [lastDotIdx]
  | cons c cs ih =>
    simp only [lastDotIdx, List.mem_cons]
    cases h : lastDotIdx cs with
    | some i =>
      have hmem : '.' ∈ cs := by
        by_contra hnot
        rw [← ih] at hnot
        rw [h] at hnot
        simp at hnot
      constructor
      · intro hf; simp at hf
      · intro hno; exact absurd (Or.inr hmem) hno
    | none =>
      have hno : '.' ∉ cs := ih.mp h
      by_cases hc : c = '.'
      · subst hc
        simp
      · rw [if_neg hc]
        constructor
        · intro _ hor
          rcases hor with h1 | h2
          · exact hc h1.symm
          · exact hno h2
        · intro _
          rfl

theorem lastDotIdx_spec (cs : List Char) (i : Nat) (h : lastDotIdx cs = some i) :
    i < cs.length ∧ (cs.drop i).head? = some '.' := by
  induction cs generalizing i with
  | nil => cases h
  | cons c cs ih =>
    simp only [lastDotIdx] at h
    cases hrec : lastDotIdx cs with
    | some j =>
      rw [hrec] at h
      simp only [Option.some.injEq] at h
      subst h
      have := ih j hrec
      constructor
      · simp; omega
      · simpa using this.2
    | none =>
      rw [hrec] at h
      by_cases hc : c = '.'
      · rw [if_pos hc] at h
        simp only [Option.some.injEq] at h
        subst h
        simp [hc]
      · rw [if_neg hc] at h
        cases h

theorem lastDotIdx_zero_no_tail_dot (c : Char) (cs : List Char)
    (h : lastDotIdx (c :: cs) = some 0) : '.' ∉ cs := by
  simp only [lastDotIdx] at h
  cases hrec : lastDotIdx cs with
  | some j => rw [hrec] at h; simp at h
  | none => exact (lastDotIdx_eq_none_iff cs).mp hrec

theorem contains_eq_true_of_mem {cs : List Char} {a : Char} (h : a ∈ cs) :
    cs.contains a = true := by
  simpa using h

theorem contains_eq_false_of_not_mem {cs : List Char} {a : Char} (h : a ∉ cs) :
    cs.contains a = false := by
  simpa using h

/-- C6 as stated is false at `"a/b."`: the source reports an extension
there (`path.extname "a/b."` is `"."`, not `""`), while the claimed
characterisation — a dot not at position 0 of the base name followed by
at least one character — does not. -/
theorem hasExtension_counterexample :
    hasExtension "a/b." = true ∧ claimHasExtension "a/b." = false := by
  decide

/-- C6 amended: `hasExtension` is true iff the path's final component
contains a dot at a position other than 0 of the base name — the dot may
be the final character, so `hasExtension "a/b."` is true — except for
the special component `".."`, which has no extension; the claim's
examples `hasExtension "a/b.ts" = true`, `hasExtension "a/b" = false`
and `hasExtension "a/.gitignore" = false` all hold. -/
theorem hasExtension_amended :
    (∀ p : String, hasExtension p = amendedHasExtension p) ∧
      hasExtension "a/b.ts" = true ∧ hasExtension "a/b" = false ∧
      hasExtension "a/.gitignore" = false ∧ hasExtension "a/b." = true := by
  refine ⟨?_, by decide, by decide, by decide, by decide⟩
  intro p
  unfold hasExtension extname amendedHasExtension
  cases hb : lastDotIdx (lastComponent p).data with
  | none =>
    have hmem : '.' ∉ (lastComponent p).data := (lastDotIdx_eq_none_iff _).mp hb
    have htail : '.' ∉ (lastComponent p).data.tail := fun hc =>
      hmem (List.mem_of_mem_tail hc)
    have hLHS : extnameBase (lastComponent p) = "" := by
      unfold extnameBase
      rw [hb]
    rw [hLHS, contains_eq_false_of_not_mem htail]
    rfl
  | some i =>
    have hunf : extnameBase (lastComponent p) =
        (if i = 0 || lastComponent p = ".." then ""
         else String.mk ((lastComponent p).data.drop i)) := by
      unfold extnameBase
      rw [hb]
    by_cases hdd : lastComponent p = ".."
    · have hddb : (lastComponent p == "..") = true := by simp [hdd]
      rw [hunf, if_pos (by simp [hdd]), hddb]
      simp
    · have hddb : (lastComponent p == "..") = false := by simp [hdd]
      by_cases hi : i = 0
      · subst hi
        rw [hunf, if_pos (by simp)]
        have htail : '.' ∉ (lastComponent p).data.tail := by
          cases hcs : (lastComponent p).data with
          | nil => simp
          | cons c cs =>
            rw [hcs] at hb
            simpa using lastDotIdx_zero_no_tail_dot c cs hb
        rw [contains_eq_false_of_not_mem htail]
        rfl
      · rw [hunf, if_neg (by simp [hi, hdd])]
        obtain ⟨hlt, hhead⟩ := lastDotIdx_spec _ i hb
        have hdrop_ne : (lastComponent p).data.drop i ≠ [] := by
          intro hnil
          rw [hnil] at hhead
          cases hhead
        have hmk : (String.mk ((lastComponent p).data.drop i) != "") = true := by
          rw [bne_iff_ne, str_ne_empty_iff, data_mk]
          exact hdrop_ne
        have hmemdot : '.' ∈ (lastComponent p).data.tail := by
          have h1 : '.' ∈ (lastComponent p).data.drop i := by
            cases hd : (lastComponent p).data.drop i with
            | nil => exact absurd hd hdrop_ne
            | cons x xs =>
              rw [hd] at hhead
              simp only [List.head?_cons, Option.some.injEq] at hhead
              simp [hd, hhead]
          have h2 : (lastComponent p).data.drop i =
              ((lastComponent p).data.tail).drop (i - 1) := by
            rw [← List.drop_one, List.drop_drop]
            congr 1
            omega
          rw [h2] at h1
          exact List.drop_subset _ _ h1
        rw [hmk, contains_eq_true_of_mem hmemdot, hddb]
        rfl

end CodebaseAnalyzer

namespace CodebaseAnalyzer

/-! ## C9: formatSize -/

/-- C9: `formatSize` renders byte counts in binary units, with
`"0 bytes"` for exactly zero, `"1 KB"` for 1024, `"-2 KB"` for −2048,
and sign preservation for every negative input. -/
theorem formatSize_spec :
    formatSize 0 = "0 bytes" ∧ formatSize 1024 = "1 KB" ∧
      formatSize (-2048) = "-2 KB" ∧
      ∀ b : Int, b < 0 → formatSize b = "-" ++ formatSize (-b) := by
  refine ⟨by decide, by decide, by decide, ?_⟩
  intro b hb
  have hb0 : ¬ b = 0 := by omega
  have hnb0 : ¬ -b = 0 := by omega
  have hnblt : ¬ -b < 0 := by omega
  simp only [formatSize, if_neg hb0, if_neg hnb0, if_pos hb, if_neg hnblt,
    Int.natAbs_neg]
  apply String.ext
  simp only [strData_append, List.append_assoc]

theorem formatSize_spec_witness :
    (-1024 : Int) < 0 ∧ formatSize (-1024) = "-" ++ formatSize (-(-1024)) :=
  ⟨by decide, formatSize_spec.2.2.2 (-1024) (by decide)⟩

/-! ## C2: gatherFiles never emits an empty directory node -/

theorem noEmptyDirs_gatherList_aux :
    ∀ (n : Nat) (entries : List FSEntry), sizeOf entries ≤ n →
    ∀ (cfg : AnalyzerConfig) (segs : List String) (s : Nat),
    noEmptyDirs (gatherList cfg segs entries s).1 = true := by
  intro n
  induction n with
  | zero =>
    intro entries h
    cases entries with
    | nil => intro cfg segs s; simp [gatherList, noEmptyDirs]
    | cons e rest => exfalso; cases e <;> simp at h
  | succ k ih =>
    intro entries h cfg segs s
    cases entries with
    | nil => simp [gatherList, noEmptyDirs]
    | cons e rest =>
      cases e with
      | file name size =>
        have hrest : sizeOf rest ≤ k := by simp at h; omega
        simp only [gatherList]
        by_cases hig : shouldIgnore cfg (joinSegs (segs ++ [name])) name = true
        · rw [if_pos hig]
          exact ih rest hrest cfg segs s
        · rw [if_neg hig]
          by_cases hrel : isRelevantFile cfg
              (cfg.directory ++ "/" ++ joinSegs (segs ++ [name])) size = true
          · rw [if_pos hrel]
            simp only [noEmptyDirs, Bool.false_eq_true, if_false, Bool.true_and]
            exact ih rest hrest cfg segs (s + size)
          · rw [if_neg hrel]
            exact ih rest hrest cfg segs s
      | dir name rok entries' =>
        have h1 : sizeOf entries' ≤ k := by simp at h; omega
        have h2 : sizeOf rest ≤ k := by simp at h; omega
        simp only [gatherList]
        by_cases hig : shouldIgnore cfg (joinSegs (segs ++ [name])) name = true
        · rw [if_pos hig]
          exact ih rest h2 cfg segs s
        · rw [if_neg hig]
          cases rok with
          | false =>
            simp only [Bool.false_eq_true, if_false, List.isEmpty_nil, if_true]
            exact ih rest h2 cfg segs s
          | true =>
            simp only [if_true]
            by_cases hemp : (gatherList cfg (segs ++ [name]) entries' s).1.isEmpty = true
            · rw [if_pos hemp]
              exact ih rest h2 cfg segs _
            · rw [if_neg hemp]
              simp only [noEmptyDirs, if_true, Bool.and_eq_true]
              refine ⟨⟨?_, ?_⟩, ?_⟩
              · simp [Bool.not_eq_true] at hemp ⊢
                exact hemp
              · exact ih entries' h1 cfg (segs ++ [name]) s
              · exact ih rest h2 cfg segs _

/-- C2: the sequence returned by `gatherFiles` never contains a directory
node with an empty children sequence, at any depth: directories whose
entire contents were ignored, irrelevant or unreadable are pruned. -/
theorem gatherFiles_no_empty_dirs (cfg : AnalyzerConfig) (segs : List String)
    (entries : List FSEntry) (s : Nat) :
    noEmptyDirs (gatherList cfg segs entries s).1 = true :=
  noEmptyDirs_gatherList_aux (sizeOf entries) entries (le_refl _) cfg segs s

/-! ## C8: totalSize accumulation is linear in the starting state -/

theorem gatherList_state_aux :
    ∀ (n : Nat) (entries : List FSEntry), sizeOf entries ≤ n →
    ∀ (cfg : AnalyzerConfig) (segs : List String) (s : Nat),
      (gatherList cfg segs entries s).1 = (gatherList cfg segs entries 0).1 ∧
      (gatherList cfg segs entries s).2 = s + (gatherList cfg segs entries 0).2 := by
  intro n
  induction n with
  | zero =>
    intro entries h
    cases entries with
    | nil => intro cfg segs s; simp [gatherList]
    | cons e rest => exfalso; cases e <;> simp at h
  | succ k ih =>
    intro entries h cfg segs s
    cases entries with
    | nil => simp [gatherList]
    | cons e rest =>
      cases e with
      | file name size =>
        have hrest : sizeOf rest ≤ k := by simp at h; omega
        obtain ⟨ha, hb⟩ := ih rest hrest cfg segs s
        obtain ⟨ha2, hb2⟩ := ih rest hrest cfg segs (s + size)
        obtain ⟨ha3, hb3⟩ := ih rest hrest cfg segs (0 + size)
        simp only [gatherList]
        by_cases hig : shouldIgnore cfg (joinSegs (segs ++ [name])) name = true
        · rw [if_pos hig, if_pos hig]
          exact ⟨ha, hb⟩
        · rw [if_neg hig, if_neg hig]
          by_cases hrel : isRelevantFile cfg
              (cfg.directory ++ "/" ++ joinSegs (segs ++ [name])) size = true
          · rw [if_pos hrel, if_pos hrel]
            dsimp only
            constructor
            · rw [ha2, ha3]
            · rw [hb2, hb3]
              omega
          · rw [if_neg hrel, if_neg hrel]
            exact ⟨ha, hb⟩
      | dir name rok entries' =>
        have h1 : sizeOf entries' ≤ k := by simp at h; omega
        have h2 : sizeOf rest ≤ k := by simp at h; omega
        simp only [gatherList]
        by_cases hig : shouldIgnore cfg (joinSegs (segs ++ [name])) name = true
        · rw [if_pos hig, if_pos hig]
          exact ih rest h2 cfg segs s
        · rw [if_neg hig, if_neg hig]
          cases rok with
          | false =>
            simp only [Bool.false_eq_true, if_false, List.isEmpty_nil, if_true]
            exact ih rest h2 cfg segs s
          | true =>
            simp only [if_true]
            obtain ⟨hs1, hs2⟩ := ih entries' h1 cfg (segs ++ [name]) s
            obtain ⟨ht1, ht2⟩ :=
              ih rest h2 cfg segs (gatherList cfg (segs ++ [name]) entries' s).2
            obtain ⟨hu1, hu2⟩ :=
              ih rest h2 cfg segs (gatherList cfg (segs ++ [name]) entries' 0).2
            rw [hs1]
            by_cases hemp :
                (gatherList cfg (segs ++ [name]) entries' 0).1.isEmpty = true
            · rw [if_pos hemp, if_pos hemp]
              constructor
              · rw [ht1, hu1]
              · rw [ht2, hu2, hs2]
                omega
            · rw [if_neg hemp, if_neg hemp]
              dsimp only
              constructor
              · rw [ht1, hu1]
              · rw [ht2, hu2, hs2]
                omega

/-- C8: calling `gatherFiles` a second time over the same directory tree
doubles the `totalSize` accumulator: starting from the constructor's 0,
the state after two identical traversals is exactly twice the state
after one (the per-file size addition is a non-idempotent side
effect). -/
theorem gatherFiles_totalSize_doubles (cfg : AnalyzerConfig) (entries : List FSEntry) :
    (gatherList cfg [] entries (gatherList cfg [] entries 0).2).2 =
      2 * (gatherList cfg [] entries 0).2 := by
  have h := (gatherList_state_aux (sizeOf entries) entries (le_refl _) cfg []
    (gatherList cfg [] entries 0).2).2
  omega

end CodebaseAnalyzer

namespace CodebaseAnalyzer

/-! ## C7: buildTreeView lines and connectors -/

theorem strAppend_assoc (a b c : String) : a ++ b ++ c = a ++ (b ++ c) := by
  apply String.ext
  simp [strData_append]

theorem no_newline_append {a b : String} (ha : '\n' ∉ a.data)
    (hb : '\n' ∉ b.data) : '\n' ∉ (a ++ b).data := by
  rw [strData_append]
  intro hm
  rcases List.mem_append.mp hm with h | h
  · exact ha h
  · exact hb h

theorem digitChar_lt_ne_newline (n : Nat) (h : n < 10) : digitChar n ≠ '\n' := by
  interval_cases n <;> decide

theorem natReprAux_no_newline : ∀ (fuel n : Nat), '\n' ∉ natReprAux fuel n := by
  intro fuel
  induction fuel with
  | zero => intro n; simp [natReprAux]
  | succ k ih =>
    intro n
    simp only [natReprAux]
    by_cases h : n < 10
    · rw [if_pos h]
      intro hm
      simp at hm
      exact digitChar_lt_ne_newline n h hm.symm
    · rw [if_neg h]
      intro hm
      rcases List.mem_append.mp hm with h1 | h2
      · exact ih (n / 10) h1
      · simp at h2
        exact digitChar_lt_ne_newline (n % 10) (Nat.mod_lt _ (by omega)) h2.symm

theorem natRepr_no_newline (n : Nat) : '\n' ∉ (natRepr n).data := by
  unfold natRepr
  rw [data_mk]
  exact natReprAux_no_newline (n + 1) n

theorem jsNumOfHundredths_no_newline (n : Nat) :
    '\n' ∉ (jsNumOfHundredths n).data := by
  have hdot : '\n' ∉ ("." : String).data := by decide
  have hzero : '\n' ∉ ("0" : String).data := by decide
  simp only [jsNumOfHundredths]
  split
  · exact natRepr_no_newline _
  · split
    · exact no_newline_append (no_newline_append (natRepr_no_newline _) hdot)
        (natRepr_no_newline _)
    · split
      · exact no_newline_append (no_newline_append (natRepr_no_newline _) hdot)
          (no_newline_append hzero (natRepr_no_newline _))
      · exact no_newline_append (no_newline_append (natRepr_no_newline _) hdot)
          (natRepr_no_newline _)

theorem sizeUnits_getD_no_newline (i : Nat) :
    '\n' ∉ (sizeUnits.getD i "undefined").data := by
  rcases i with _ | _ | _ | _ | _ | n
  · decide
  · decide
  · decide
  · decide
  · decide
  · have hdef : sizeUnits.getD (n + 5) "undefined" = "undefined" := by
      apply List.getD_eq_default
      simp [sizeUnits]
    rw [hdef]
    decide

theorem formatSize_no_newline (b : Int) : '\n' ∉ (formatSize b).data := by
  have hsp : '\n' ∉ (" " : String).data := by decide
  have hdash : '\n' ∉ ("-" : String).data := by decide
  simp only [formatSize]
  split
  · decide
  · split
    · exact no_newline_append (no_newline_append
        (no_newline_append hdash (jsNumOfHundredths_no_newline _)) hsp)
        (sizeUnits_getD_no_newline _)
    · exact no_newline_append (no_newline_append
        (jsNumOfHundredths_no_newline _) hsp) (sizeUnits_getD_no_newline _)

theorem countNL_append (a b : String) :
    countNL (a ++ b) = countNL a + countNL b := by
  simp [countNL, strData_append]

theorem countNL_eq_zero {s : String} (h : '\n' ∉ s.data) : countNL s = 0 := by
  simp [countNL, List.count_eq_zero]
  exact h

theorem countNL_buildTreeView_aux :
    ∀ (n : Nat) (nodes : List FileNode), sizeOf nodes ≤ n →
    ∀ indent : String, cleanTree nodes = true → '\n' ∉ indent.data →
    countNL (buildTreeView nodes indent) = totalNodes nodes := by
  intro n
  induction n with
  | zero =>
    intro nodes h
    cases nodes with
    | nil => intro indent _ _; simp [buildTreeView, totalNodes, countNL]
    | cons x rest => exfalso; cases x; simp at h
  | succ k ih =>
    intro nodes h indent hclean hind
    cases nodes with
    | nil => simp [buildTreeView, totalNodes, countNL]
    | cons x rest =>
      cases x with
      | mk name path size d children =>
        have hch : sizeOf children ≤ k := by simp at h; omega
        have hrest : sizeOf rest ≤ k := by simp at h; omega
        simp only [cleanTree, Bool.and_eq_true] at hclean
        obtain ⟨⟨hname', hdirc⟩, hrestc⟩ := hclean
        have hname : '\n' ∉ name.data := by simpa using hname'
        have hconn : '\n' ∉ (if rest.isEmpty then "└──" else "├──").data := by
          split <;> decide
        have hmark : '\n' ∉ (if d then "📁" else "☰").data := by
          split <;> decide
        have hext : '\n' ∉ (if rest.isEmpty then "    " else "│   ").data := by
          split <;> decide
        have hsp : countNL " " = 0 := by decide
        have hnl : countNL "\n" = 1 := by decide
        have hsize : countNL (if d then "" else " " ++ formatSize size) = 0 := by
          split
          · decide
          · rw [countNL_append]
            rw [countNL_eq_zero (formatSize_no_newline size)]
            decide
        simp only [buildTreeView, totalNodes]
        rw [countNL_append, countNL_append, countNL_append, countNL_append,
          countNL_append, countNL_append, countNL_append, countNL_append,
          countNL_append]
        rw [countNL_eq_zero hind, countNL_eq_zero hconn, countNL_eq_zero hmark,
          countNL_eq_zero hname, hsize, hsp, hnl]
        have hrestCount : countNL (buildTreeView rest indent) = totalNodes rest :=
          ih rest hrest indent hrestc hind
        rw [hrestCount]
        by_cases hdir : d = true
        · rw [hdir] at hdirc ⊢
          simp only [if_true] at hdirc ⊢
          have hchCount : countNL (buildTreeView children
              (indent ++ if rest.isEmpty then "    " else "│   ")) =
              totalNodes children :=
            ih children hch _ hdirc (no_newline_append hind hext)
          rw [hchCount]
        · have hdf : d = false := by
            cases d
            · rfl
            · exact absurd rfl hdir
          rw [hdf]
          simp only [Bool.false_eq_true, if_false]
          have : countNL "" = 0 := by decide
          rw [this]

end CodebaseAnalyzer

namespace CodebaseAnalyzer

theorem strEmpty_data : ("" : String).data = [] := rfl

theorem joinNL_append (xs ys : List String) :
    joinNL (xs ++ ys) = joinNL xs ++ joinNL ys := by
  induction xs with
  | nil =>
    simp only [List.nil_append, joinNL]
    apply String.ext
    simp [strData_append, strEmpty_data]
  | cons x xs ih =>
    show joinNL (x :: (xs ++ ys)) = joinNL (x :: xs) ++ joinNL ys
    simp only [joinNL]
    rw [ih]
    apply String.ext
    simp [strData_append]

theorem buildTreeView_spec_aux :
    ∀ (n : Nat) (nodes : List FileNode), sizeOf nodes ≤ n →
    ∀ indent : String,
      buildTreeView nodes indent = joinNL (specTreeLines nodes indent) ∧
      (specTreeLines nodes indent).length = totalNodes nodes := by
  intro n
  induction n with
  | zero =>
    intro nodes h
    cases nodes with
    | nil => intro indent; simp [buildTreeView, specTreeLines, joinNL, totalNodes]
    | cons x rest => exfalso; cases x; simp at h
  | succ k ih =>
    intro nodes h indent
    cases nodes with
    | nil => simp [buildTreeView, specTreeLines, joinNL, totalNodes]
    | cons x rest =>
      cases x with
      | mk name path size d children =>
        have hch : sizeOf children ≤ k := by simp at h; omega
        have hrest : sizeOf rest ≤ k := by simp at h; omega
        cases rest with
        | nil =>
          simp only [buildTreeView, specTreeLines, joinNL, totalNodes,
            List.isEmpty_nil, if_true]
          by_cases hdir : d = true
          · rw [hdir]
            simp only [if_true]
            obtain ⟨hceq, hclen⟩ := ih children hch (indent ++ "    ")
            rw [hceq]
            constructor
            · apply String.ext
              simp [strData_append, strEmpty_data]
            · simp only [List.length_cons, hclen]
              omega
          · have hdf : d = false := by
              cases d
              · rfl
              · exact absurd rfl hdir
            rw [hdf]
            simp only [Bool.false_eq_true, if_false]
            constructor
            · apply String.ext
              simp [strData_append, strEmpty_data, joinNL]
            · simp
        | cons nxt rest' =>
          have hrest2 : sizeOf (nxt :: rest') ≤ k := hrest
          simp only [buildTreeView, specTreeLines, joinNL, totalNodes,
            List.isEmpty_cons, Bool.false_eq_true, if_false]
          obtain ⟨hreq, hrlen⟩ := ih (nxt :: rest') hrest2 indent
          by_cases hdir : d = true
          · rw [hdir]
            simp only [if_true]
            obtain ⟨hceq, hclen⟩ := ih children hch (indent ++ "│   ")
            rw [hceq, hreq, joinNL_append]
            constructor
            · apply String.ext
              simp [strData_append]
            · simp only [List.length_cons, List.length_append, hclen, hrlen]
              have : totalNodes (nxt :: rest') =
                  (specTreeLines (nxt :: rest') indent).length := hrlen.symm
              omega
          · have hdf : d = false := by
              cases d
              · rfl
              · exact absurd rfl hdir
            rw [hdf]
            simp only [Bool.false_eq_true, if_false]
            rw [hreq]
            constructor
            · apply String.ext
              simp [strData_append, strEmpty_data, joinNL]
            · simp only [List.length_cons, List.nil_append, hrlen]
              omega

/-- C7 as stated is false for trees whose node names contain a newline
character: a single file node named `"a\nb"` renders as one `└──` entry
whose output contains two newlines, so the output's line count is 2
while the tree has 1 node. -/
theorem buildTreeView_line_count_counterexample :
    countNL (buildTreeView [⟨"a\nb", "p", 0, false, []⟩] "") = 2 ∧
      totalNodes [⟨"a\nb", "p", 0, false, []⟩] = 1 := by
  constructor
  · simp only [buildTreeView]
    decide
  · simp only [totalNodes]
    decide

/-- C7 amended: for every tree whose rendered names are free of newline
characters (true of the trees the crawler builds from well-formed
filesystem names) and newline-free indent, the string returned by
`buildTreeView` has exactly one line per node (files and directories
together); unconditionally, the output is exactly the spec's line list —
one line per node, the last sibling of every level rendered with the
`└──` connector and every other sibling with `├──` — joined with
newlines, and that line list has exactly one entry per node.
`buildTreeView` performs no filtering and depends only on the input
tree. -/
theorem buildTreeView_spec (nodes : List FileNode) (indent : String)
    (hclean : cleanTree nodes = true) (hind : '\n' ∉ indent.data) :
    countNL (buildTreeView nodes indent) = totalNodes nodes ∧
      buildTreeView nodes indent = joinNL (specTreeLines nodes indent) ∧
      (specTreeLines nodes indent).length = totalNodes nodes :=
  ⟨countNL_buildTreeView_aux (sizeOf nodes) nodes le_rfl indent hclean hind,
    (buildTreeView_spec_aux (sizeOf nodes) nodes le_rfl indent).1,
    (buildTreeView_spec_aux (sizeOf nodes) nodes le_rfl indent).2⟩

theorem buildTreeView_spec_witness :
    (cleanTree [⟨"a.ts", "p", 3, false, []⟩,
        ⟨"d", "q", 0, true, [⟨"b", "r", 5, false, []⟩]⟩] = true ∧
      '\n' ∉ ("" : String).data) ∧
      (countNL (buildTreeView [⟨"a.ts", "p", 3, false, []⟩,
          ⟨"d", "q", 0, true, [⟨"b", "r", 5, false, []⟩]⟩] "") =
        totalNodes [⟨"a.ts", "p", 3, false, []⟩,
          ⟨"d", "q", 0, true, [⟨"b", "r", 5, false, []⟩]⟩] ∧
        buildTreeView [⟨"a.ts", "p", 3, false, []⟩,
          ⟨"d", "q", 0, true, [⟨"b", "r", 5, false, []⟩]⟩] "" =
          joinNL (specTreeLines [⟨"a.ts", "p", 3, false, []⟩,
            ⟨"d", "q", 0, true, [⟨"b", "r", 5, false, []⟩]⟩] "") ∧
        (specTreeLines [⟨"a.ts", "p", 3, false, []⟩,
          ⟨"d", "q", 0, true, [⟨"b", "r", 5, false, []⟩]⟩] "").length =
          totalNodes [⟨"a.ts", "p", 3, false, []⟩,
            ⟨"d", "q", 0, true, [⟨"b", "r", 5, false, []⟩]⟩]) :=
  ⟨⟨by simp only [cleanTree]; decide, by decide⟩,
    buildTreeView_spec _ "" (by simp only [cleanTree]; decide) (by decide)⟩

end CodebaseAnalyzer

namespace CodebaseAnalyzer

/-! ## C3 and C4: context assembly, empty-context error, memory guard -/

theorem checkMemoryUsage_ok {probe : Nat → Nat} {limitMB i i' : Nat}
    (h : checkMemoryUsage probe limitMB i = Except.ok i') :
    i' = i + 1 ∧ probe i ≤ limitMB := by
  unfold checkMemoryUsage at h
  by_cases hp : probe i > limitMB
  · rw [if_pos hp] at h
    cases h
  · rw [if_neg hp] at h
    simp only [Except.ok.injEq] at h
    exact ⟨h.symm, by omega⟩

theorem processFileTree_noread_aux :
    ∀ (n : Nat) (nodes : List FileNode), sizeOf nodes ≤ n →
    ∀ (readFile : String → Option String) (probe : Nat → Nat) (limitMB : Nat)
      (st : PState),
      noReadableFile readFile nodes = true →
      (∀ j, probe j ≤ limitMB) →
      processFileTree readFile probe limitMB nodes st =
        Except.ok ⟨st.ctx, st.processed, st.probeIdx + totalNodes nodes⟩ := by
  intro n
  induction n with
  | zero =>
    intro nodes h
    cases nodes with
    | nil =>
      intro readFile probe limitMB st _ _
      simp [processFileTree, totalNodes]
    | cons x rest => exfalso; cases x; simp at h
  | succ k ih =>
    intro nodes h readFile probe limitMB st hnr hprobe
    cases nodes with
    | nil => simp [processFileTree, totalNodes]
    | cons x rest =>
      cases x with
      | mk name path size d children =>
        have hch : sizeOf children ≤ k := by simp at h; omega
        have hrest : sizeOf rest ≤ k := by simp at h; omega
        simp only [noReadableFile, Bool.and_eq_true] at hnr
        obtain ⟨hhead, hrestnr⟩ := hnr
        simp only [processFileTree]
        have hnogt : ∀ i, ¬ probe i > limitMB := by
          intro i
          have := hprobe i
          omega
        by_cases hdir : d = true
        · rw [hdir] at hhead ⊢
          simp only [if_true] at hhead ⊢
          rw [ih children hch readFile probe limitMB st hhead hprobe]
          simp only [checkMemoryUsage]
          rw [if_neg (hnogt _)]
          dsimp only
          rw [ih rest hrest readFile probe limitMB _ hrestnr hprobe]
          simp only [Except.ok.injEq, PState.mk.injEq, totalNodes, hdir, if_true]
          refine ⟨trivial, trivial, by omega⟩
        · have hdf : d = false := by
            cases d
            · rfl
            · exact absurd rfl hdir
          rw [hdf] at hhead ⊢
          simp only [Bool.false_eq_true, if_false] at hhead ⊢
          have hread : readFile path = none := by
            rw [Option.isNone_iff_eq_none] at hhead
            exact hhead
          rw [hread]
          simp only [checkMemoryUsage]
          rw [if_neg (hnogt _)]
          dsimp only
          rw [ih rest hrest readFile probe limitMB _ hrestnr hprobe]
          simp only [Except.ok.injEq, PState.mk.injEq, totalNodes,
            Bool.false_eq_true, if_false]
          refine ⟨trivial, trivial, by omega⟩

theorem processFileTree_trips_aux :
    ∀ (n : Nat) (nodes : List FileNode), sizeOf nodes ≤ n →
    ∀ (readFile : String → Option String) (probe : Nat → Nat) (limitMB : Nat)
      (st : PState),
      nodes ≠ [] → probe st.probeIdx > limitMB →
      processFileTree readFile probe limitMB nodes st =
        Except.error memoryErrorMsg := by
  intro n
  induction n with
  | zero =>
    intro nodes h
    cases nodes with
    | nil => intro _ _ _ _ hne _; exact absurd rfl hne
    | cons x rest => exfalso; cases x; simp at h
  | succ k ih =>
    intro nodes h readFile probe limitMB st hne htrip
    cases nodes with
    | nil => exact absurd rfl hne
    | cons x rest =>
      cases x with
      | mk name path size d children =>
        have hch : sizeOf children ≤ k := by simp at h; omega
        simp only [processFileTree]
        by_cases hdir : d = true
        · rw [hdir]
          simp only [if_true]
          cases hcs : children with
          | nil =>
            simp only [processFileTree, checkMemoryUsage]
            rw [if_pos htrip]
          | cons c cs =>
            rw [← hcs]
            rw [ih children (by rw [hcs] at hch ⊢; exact hch) readFile probe
              limitMB st (by rw [hcs]; simp) htrip]
        · have hdf : d = false := by
            cases d
            · rfl
            · exact absurd rfl hdir
          rw [hdf]
          simp only [Bool.false_eq_true, if_false]
          cases hrd : readFile path with
          | some content =>
            simp only [checkMemoryUsage]
            rw [if_pos htrip]
          | none =>
            simp only [checkMemoryUsage]
            rw [if_pos htrip]

theorem processFileTree_ok_probes_aux :
    ∀ (n : Nat) (nodes : List FileNode), sizeOf nodes ≤ n →
    ∀ (readFile : String → Option String) (probe : Nat → Nat) (limitMB : Nat)
      (st st' : PState),
      processFileTree readFile probe limitMB nodes st = Except.ok st' →
      st'.probeIdx = st.probeIdx + totalNodes nodes ∧
      ∀ j, st.probeIdx ≤ j → j < st'.probeIdx → probe j ≤ limitMB := by
  intro n
  induction n with
  | zero =>
    intro nodes h
    cases nodes with
    | nil =>
      intro readFile probe limitMB st st' hok
      simp only [processFileTree, Except.ok.injEq] at hok
      subst hok
      simp only [totalNodes]
      constructor
      · omega
      · intro j h1 h2
        omega
    | cons x rest => exfalso; cases x; simp at h
  | succ k ih =>
    intro nodes h readFile probe limitMB st st' hok
    cases nodes with
    | nil =>
      simp only [processFileTree, Except.ok.injEq] at hok
      subst hok
      simp only [totalNodes]
      constructor
      · omega
      · intro j h1 h2
        omega
    | cons x rest =>
      cases x with
      | mk name path size d children =>
        have hch : sizeOf children ≤ k := by simp at h; omega
        have hrest : sizeOf rest ≤ k := by simp at h; omega
        simp only [processFileTree] at hok
        by_cases hdir : d = true
        · rw [hdir] at hok
          simp only [if_true] at hok
          cases hstep : processFileTree readFile probe limitMB children st with
          | error e =>
            rw [hstep] at hok
            cases hok
          | ok st1 =>
            rw [hstep] at hok
            dsimp only at hok
            obtain ⟨hp1, hq1⟩ :=
              ih children hch readFile probe limitMB st st1 hstep
            cases hchk : checkMemoryUsage probe limitMB st1.probeIdx with
            | error e =>
              rw [hchk] at hok
              cases hok
            | ok i2 =>
              rw [hchk] at hok
              dsimp only at hok
              obtain ⟨hi2, hpi⟩ := checkMemoryUsage_ok hchk
              obtain ⟨hp2, hq2⟩ :=
                ih rest hrest readFile probe limitMB _ st' hok
              dsimp only at hp2 hq2
              simp only [totalNodes, hdir, if_true]
              constructor
              · omega
              · intro j hj1 hj2
                by_cases hjc : j < st1.probeIdx
                · exact hq1 j hj1 hjc
                · by_cases hje : j = st1.probeIdx
                  · rw [hje]
                    exact hpi
                  · exact hq2 j (by omega) (by omega)
        · have hdf : d = false := by
            cases d
            · rfl
            · exact absurd rfl hdir
          rw [hdf] at hok
          simp only [Bool.false_eq_true, if_false] at hok
          have hfile : ∃ st1 : PState, st1.probeIdx = st.probeIdx ∧
              (match readFile path with
                | some content =>
                    Except.ok (PState.mk (st.ctx ++ [fileBlock path size content])
                      (st.processed + 1) st.probeIdx)
                | none => Except.ok st) = (Except.ok st1 : Except String PState) := by
            cases readFile path with
            | some content =>
              exact ⟨⟨st.ctx ++ [fileBlock path size content],
                st.processed + 1, st.probeIdx⟩, rfl, rfl⟩
            | none => exact ⟨st, rfl, rfl⟩
          obtain ⟨st1, hst1p, hst1⟩ := hfile
          rw [hst1] at hok
          dsimp only at hok
          cases hchk : checkMemoryUsage probe limitMB st1.probeIdx with
          | error e =>
            rw [hchk] at hok
            cases hok
          | ok i2 =>
            rw [hchk] at hok
            dsimp only at hok
            obtain ⟨hi2, hpi⟩ := checkMemoryUsage_ok hchk
            obtain ⟨hp2, hq2⟩ :=
              ih rest hrest readFile probe limitMB _ st' hok
            dsimp only at hp2 hq2
            simp only [totalNodes, hdf, Bool.false_eq_true, if_false]
            constructor
            · omega
            · intro j hj1 hj2
              by_cases hje : j = st.probeIdx
              · rw [hje]
                rw [← hst1p]
                exact hpi
              · exact hq2 j (by omega) (by omega)

end CodebaseAnalyzer

namespace CodebaseAnalyzer

/-- C3: if the gathered file tree contains zero files whose content can
be successfully read — in particular when the directory has zero
relevant files at all — and the memory guard stays quiet, `analyze`
fails with the "No relevant files found." error instead of returning an
output record. -/
theorem analyze_no_relevant_files (cfg : AnalyzerConfig) (entries : List FSEntry)
    (readFile : String → Option String) (probe : Nat → Nat)
    (tokenizer : String → Nat)
    (hnr : noReadableFile readFile (gatherList cfg [] entries 0).1 = true)
    (hprobe : ∀ j, probe j ≤ cfg.memoryLimitMB) :
    analyze cfg entries readFile probe tokenizer = Except.error noRelevantMsg := by
  simp only [analyze]
  rw [processFileTree_noread_aux (sizeOf (gatherList cfg [] entries 0).1) _ le_rfl
    readFile probe cfg.memoryLimitMB ⟨[], 0, 0⟩ hnr hprobe]
  rfl

theorem analyze_no_relevant_files_witness :
    (noReadableFile (fun _ => none) (gatherList cfgT [] [] 0).1 = true ∧
      ∀ j : Nat, (fun _ => (0 : Nat)) j ≤ cfgT.memoryLimitMB) ∧
      analyze cfgT [] (fun _ => none) (fun _ => 0) (fun _ => 7) =
        Except.error noRelevantMsg := by
  have h1 : noReadableFile (fun _ => none) (gatherList cfgT [] [] 0).1 = true := by
    simp [gatherList, noReadableFile]
  have h2 : ∀ j : Nat, (fun _ => (0 : Nat)) j ≤ cfgT.memoryLimitMB := fun _ =>
    Nat.zero_le _
  exact ⟨⟨h1, h2⟩,
    analyze_no_relevant_files cfgT [] (fun _ => none) (fun _ => 0) (fun _ => 7)
      h1 h2⟩

/-- C4: the memory guard runs once after every node visited during
content assembly — a successful `processFileTree` run advances the probe
index by exactly the number of nodes of its input, and every probe it
consumed was within the limit, so a run during which a measured value
exceeded the limit can never return `ok` — and when the measured heap
usage already exceeds the configured limit at the first check and the
gathered tree is non-empty, the guard's fatal error propagates out of
`analyze`: the partially assembled context is discarded and no partial
output record is returned. -/
theorem memory_guard_spec :
    (∀ (readFile : String → Option String) (probe : Nat → Nat) (limitMB : Nat)
        (nodes : List FileNode) (st st' : PState),
        processFileTree readFile probe limitMB nodes st = Except.ok st' →
        st'.probeIdx = st.probeIdx + totalNodes nodes ∧
        ∀ j, st.probeIdx ≤ j → j < st'.probeIdx → probe j ≤ limitMB) ∧
    (∀ (cfg : AnalyzerConfig) (entries : List FSEntry)
        (readFile : String → Option String) (probe : Nat → Nat)
        (tokenizer : String → Nat),
        cfg.memoryLimitMB < probe 0 →
        (gatherList cfg [] entries 0).1 ≠ [] →
        analyze cfg entries readFile probe tokenizer =
          Except.error memoryErrorMsg) := by
  constructor
  · intro readFile probe limitMB nodes st st' hok
    exact processFileTree_ok_probes_aux (sizeOf nodes) nodes le_rfl readFile
      probe limitMB st st' hok
  · intro cfg entries readFile probe tokenizer htrip hne
    simp only [analyze]
    rw [processFileTree_trips_aux (sizeOf (gatherList cfg [] entries 0).1) _
      le_rfl readFile probe cfg.memoryLimitMB ⟨[], 0, 0⟩ hne htrip]

theorem memory_guard_spec_witness :
    ((processFileTree (fun _ => some "x") (fun _ => 0) 64
        [⟨"a.ts", "/r/a.ts", 3, false, []⟩] ⟨[], 0, 0⟩ =
        Except.ok ⟨[fileBlock "/r/a.ts" 3 "x"], 1, 1⟩) ∧
      ((PState.mk [fileBlock "/r/a.ts" 3 "x"] 1 1).probeIdx =
          (PState.mk [] 0 0).probeIdx +
            totalNodes [⟨"a.ts", "/r/a.ts", 3, false, []⟩] ∧
        ∀ j, (PState.mk [] 0 0).probeIdx ≤ j →
          j < (PState.mk [fileBlock "/r/a.ts" 3 "x"] 1 1).probeIdx →
          (fun _ => (0 : Nat)) j ≤ 64)) ∧
    ((cfgT.memoryLimitMB < (fun _ => (99 : Nat)) 0 ∧
        (gatherList cfgT [] [FSEntry.file "a.ts" 3] 0).1 ≠ []) ∧
      analyze cfgT [FSEntry.file "a.ts" 3] (fun _ => some "x") (fun _ => 99)
        (fun _ => 7) = Except.error memoryErrorMsg) := by
  have hstep : processFileTree (fun _ => some "x") (fun _ => 0) 64
      [⟨"a.ts", "/r/a.ts", 3, false, []⟩] ⟨[], 0, 0⟩ =
      Except.ok ⟨[fileBlock "/r/a.ts" 3 "x"], 1, 1⟩ := by
    simp [processFileTree, checkMemoryUsage]
  have h1 : cfgT.memoryLimitMB < (fun _ => (99 : Nat)) 0 := by decide
  have h2 : (gatherList cfgT [] [FSEntry.file "a.ts" 3] 0).1 ≠ [] := by
    simp +decide [gatherList, shouldIgnore, isRelevantFile, cfgT]
  exact ⟨⟨hstep, memory_guard_spec.1 (fun _ => some "x") (fun _ => 0) 64
      [⟨"a.ts", "/r/a.ts", 3, false, []⟩] ⟨[], 0, 0⟩
      ⟨[fileBlock "/r/a.ts" 3 "x"], 1, 1⟩ hstep⟩,
    ⟨⟨h1, h2⟩, memory_guard_spec.2 cfgT [FSEntry.file "a.ts" 3]
      (fun _ => some "x") (fun _ => 99) (fun _ => 7) h1 h2⟩⟩

end CodebaseAnalyzer
